import Mathlib

/-!
Shallow embedding of the Poseidon sponge layer from `src/src/poseidon.rs`.

The sponge engine (`Poseidon.update`, `Poseidon.squeeze`, `Poseidon.reset`,
`Poseidon.squeeze_and_reset`, the `Default` construction and the digest-trait
adapter `finalize_into`) is translated from the source.  The external
collaborators (`Spec::permute`, the `State` container internals and the field
type `F`) live outside `src/`, so the permutation is an abstract function
parameter and `State::default` / `State::result` are modelled from the spec.
The state vector is a `List F` of length `T`; input addition mirrors the
source's `chunk.iter().zip(self.state.0.iter_mut().skip(1))` loop.
-/

namespace PsePoseidon

/-- Modelled from the spec: `Spec::new(r_f, r_p)` builds permutation
parameters for the given round counts; the permutation internals (round
constants, S-boxes, MDS mixing) are out of scope, so only the round counts
are recorded.  The permutation itself is an abstract function parameter
`perm : Spec → List F → List F` everywhere below, reflecting the contract
that it depends only on the round-count parameters bound at construction. -/
structure Spec where
  r_f : Nat
  r_p : Nat
deriving DecidableEq

/-- The sponge engine `Poseidon<F, T, RATE>`: a state vector, the permutation
parameters, and the absorption buffer.  The const generics `T` and `RATE`
become explicit `Nat` arguments of the operations that need them. -/
structure Poseidon (F : Type) where
  state : List F
  spec : Spec
  absorbing : List F
deriving DecidableEq

/-- Modelled from the spec: `StateVector::default()` is the canonical
all-zero vector of length `T`. -/
def State.default (F : Type) [Zero F] (T : Nat) : List F :=
  List.replicate T 0

/-- Modelled from the spec: `StateVector.result()` returns the field element
at the fixed output index (index 0 in all observed configurations) without
mutating the state. -/
def State.result {F : Type} [Zero F] (st : List F) : F :=
  st.getD 0 0

/-- Elementwise addition of the chunk into the state cells, stopping at the
shorter list and leaving surplus state cells unchanged: the semantics of
`chunk.iter().zip(cells).map(add_assign)` where surplus chunk elements are
dropped by `zip`. -/
def zipAdd {F : Type} [Add F] : List F → List F → List F
  | [], ys => ys
  | _ :: _, [] => []
  | x :: xs, y :: ys => (y + x) :: zipAdd xs ys

/-- The input-addition step shared by `update` and `squeeze`:
`for (input_element, state) in chunk.iter().zip(self.state.0.iter_mut().skip(1))
 { state.add_assign(input_element); }`
— chunk elements are added into state cells starting at index 1. -/
def addAt1 {F : Type} [Add F] (chunk st : List F) : List F :=
  match st with
  | [] => []
  | s0 :: rest => s0 :: zipAdd chunk rest

/-- Rust's `slice::chunks(R)`: consecutive chunks of size `R`, the last chunk
possibly shorter, none for the empty slice.  (`chunks(0)` panics in Rust; here
it returns `[]`, and every theorem that touches chunking assumes `1 ≤ R`.) -/
def chunksList {α : Type} (R : Nat) (l : List α) : List (List α) :=
  if h : l.length = 0 ∨ R = 0 then []
  else l.take R :: chunksList R (l.drop R)
termination_by l.length
decreasing_by
  push_neg at h
  simp only [List.length_drop]
  omega

/-- The body of `Poseidon::update`'s `for chunk in input_elements.chunks(RATE)`
loop, folding over the chunk list and threading `(state, absorbing)`:
a short chunk is stored as the new absorption buffer, a full chunk is added
into the state at positions 1.., permuted, and the buffer is flushed. -/
def updateLoop {F : Type} [Add F] (perm : List F → List F) (R : Nat)
    (acc : List F × List F) : List (List F) → List F × List F
  | [] => acc
  | c :: cs =>
    if c.length < R then updateLoop perm R (acc.1, c) cs
    else updateLoop perm R (perm (addAt1 c acc.1), []) cs

/-- `Poseidon::update`: concatenate the absorption buffer with the new
elements and run the chunk loop. -/
def Poseidon.update {F : Type} [Add F] (perm : Spec → List F → List F)
    (R : Nat) (p : Poseidon F) (elements : List F) : Poseidon F :=
  let input_elements := p.absorbing ++ elements
  let res := updateLoop (perm p.spec) R (p.state, p.absorbing)
    (chunksList R input_elements)
  { p with state := res.1, absorbing := res.2 }

/-- `Poseidon::squeeze`: push the padding marker `F::ONE` onto the buffered
last chunk, add it into the state at positions 1.., permute once, flush the
buffer and return the designated output slot.  Returns the output element
together with the mutated engine. -/
def Poseidon.squeeze {F : Type} [Add F] [Zero F] [One F]
    (perm : Spec → List F → List F) (p : Poseidon F) : F × Poseidon F :=
  let last_chunk := p.absorbing ++ [(1 : F)]
  let st := perm p.spec (addAt1 last_chunk p.state)
  (State.result st, { p with state := st, absorbing := [] })

/-- `Poseidon::new(r_f, r_p)`: clear-state instance with the given round
counts, default state vector and empty absorption buffer. -/
def Poseidon.new (F : Type) [Zero F] (T r_f r_p : Nat) : Poseidon F :=
  { spec := ⟨r_f, r_p⟩, state := State.default F T, absorbing := [] }

/-- `Poseidon::reset`: reinitialize the state vector to the default and clear
the absorption buffer. -/
def Poseidon.reset {F : Type} [Zero F] (T : Nat) (p : Poseidon F) : Poseidon F :=
  { p with state := State.default F T, absorbing := [] }

/-- `Poseidon::squeeze_and_reset`: squeeze, then reset, returning squeeze's
result. -/
def Poseidon.squeeze_and_reset {F : Type} [Add F] [Zero F] [One F]
    (perm : Spec → List F → List F) (T : Nat) (p : Poseidon F) :
    F × Poseidon F :=
  let r := p.squeeze perm
  (r.1, r.2.reset T)

/-- `impl Default for Poseidon`: hardcoded round counts `Spec::new(8, 57)`,
default state, empty absorption buffer. -/
def Poseidon.default (F : Type) [Zero F] (T : Nat) : Poseidon F :=
  { spec := ⟨8, 57⟩, state := State.default F T, absorbing := [] }

/-- `OutputSizeUser for Poseidon`: `type OutputSize = typenum::U32`. -/
def outputSize : Nat := 32

/-- `FixedOutput::finalize_into`: squeeze-and-reset, serialize the result via
the field's canonical byte representation (`to_repr`, external, an abstract
parameter here), reverse the byte order, and produce the output bytes. -/
def Poseidon.finalize_into {F : Type} [Add F] [Zero F] [One F]
    (perm : Spec → List F → List F) (T : Nat) (toRepr : F → List Nat)
    (p : Poseidon F) : List Nat :=
  let result := (p.squeeze_and_reset perm T).1
  let result_bytes := toRepr result
  result_bytes.reverse

/-- Number of `self.spec.permute` invocations performed by the chunk loop of
`Poseidon::update`: one per full chunk (the `else` branch), none for a short
chunk (the `if` branch). -/
def updateLoopCalls {F : Type} (R : Nat) : List (List F) → Nat
  | [] => 0
  | c :: cs => (if c.length < R then 0 else 1) + updateLoopCalls R cs

/-- Number of permutation invocations performed by one `Poseidon::update`
call: the loop runs over `chunksList R (absorbing ++ elements)`. -/
def Poseidon.updateCalls {F : Type} (R : Nat) (p : Poseidon F)
    (elements : List F) : Nat :=
  updateLoopCalls R (chunksList R (p.absorbing ++ elements))

/-- `Poseidon::squeeze` performs exactly one permutation invocation
(`self.spec.permute(&mut self.state)` appears once, unconditionally). -/
def squeezeCalls : Nat := 1

/-- A public operation on the engine: `update`, `squeeze`, `reset` or
`squeeze_and_reset` (squeeze outputs are discarded when tracking state). -/
inductive Op (F : Type) where
  | upd (elements : List F)
  | sq
  | rst
  | sqrst

/-- Run one public operation on the engine, ignoring squeeze outputs. -/
def Poseidon.runOp {F : Type} [Add F] [Zero F] [One F]
    (perm : Spec → List F → List F) (T R : Nat) (p : Poseidon F) :
    Op F → Poseidon F
  | .upd es => p.update perm R es
  | .sq => (p.squeeze perm).2
  | .rst => p.reset T
  | .sqrst => (p.squeeze_and_reset perm T).2

/-- Run a sequence of public operations on the engine. -/
def Poseidon.runOps {F : Type} [Add F] [Zero F] [One F]
    (perm : Spec → List F → List F) (T R : Nat) (p : Poseidon F)
    (ops : List (Op F)) : Poseidon F :=
  ops.foldl (fun q op => q.runOp perm T R op) p

/-- Modelled from the spec (the claim's reference computation): append one
multiplicative-identity element to the input, pad with zeros up to the next
multiple of `RATE`, split into consecutive `RATE`-sized chunks, and for each
chunk in order add its elements into state positions 1.. of an initially
default state and apply the permutation once; finally read the designated
output slot. -/
def referenceHash {F : Type} [Add F] [Zero F] [One F]
    (perm : Spec → List F → List F) (sp : Spec) (T R : Nat)
    (input : List F) : F :=
  let padded := input ++ (1 : F) ::
    List.replicate ((R - (input.length + 1) % R) % R) (0 : F)
  State.result ((chunksList R padded).foldl
    (fun st c => perm sp (addAt1 c st)) (State.default F T))

/-- Proof-internal recursive characterization of the chunk loop: consume full
`R`-sized chunks from the front, permuting after each, and stop at the
remainder (strictly shorter than `R`), which becomes the absorption buffer. -/
def absorbAll {F : Type} [Add F] (perm : List F → List F) (R : Nat)
    (st l : List F) : List F × List F :=
  if h : l.length < R ∨ R = 0 then (st, l)
  else absorbAll perm R (perm (addAt1 (l.take R) st)) (l.drop R)
termination_by l.length
decreasing_by
  push_neg at h
  simp only [List.length_drop]
  omega

/-- A concrete permutation instance over `Int`, used to evaluate the claims
on closed inputs: it mixes all cells (sum into cell 0, affine map elsewhere)
and depends on the round-count parameters. -/
def intPerm : Spec → List Int → List Int :=
  fun sp l =>
    ((l.foldl (fun a b => a + b) 0 + (sp.r_f : Int))
      :: l.map (fun x => 3 * x + 1)).take l.length

/-! ### Structural lemmas about chunking and absorption -/

theorem chunksList_nil {α : Type} (R : Nat) : chunksList R ([] : List α) = [] := by
  rw [chunksList]
  simp

theorem chunksList_cons {α : Type} (R : Nat) (l : List α) (hl : l ≠ [])
    (hR : R ≠ 0) : chunksList R l = l.take R :: chunksList R (l.drop R) := by
  rw [chunksList]
  simp [hl, hR, List.length_eq_zero]

theorem absorbAll_short {F : Type} [Add F] (perm : List F → List F) (R : Nat)
    (st l : List F) (h : l.length < R) : absorbAll perm R st l = (st, l) := by
  rw [absorbAll]
  simp [h]

theorem absorbAll_long {F : Type} [Add F] (perm : List F → List F) (R : Nat)
    (st l : List F) (h : R ≤ l.length) (hR : R ≠ 0) :
    absorbAll perm R st l
      = absorbAll perm R (perm (addAt1 (l.take R) st)) (l.drop R) := by
  rw [absorbAll]
  have : ¬(l.length < R ∨ R = 0) := by omega
  simp [this]

/-- The chunk loop of `update` computes `absorbAll` whenever the initial
buffer argument is forced to `[]` on empty input. -/
theorem updateLoop_eq_absorbAll {F : Type} [Add F] (perm : List F → List F)
    (R : Nat) (hR : R ≠ 0) (l st ab : List F) (hab : l = [] → ab = []) :
    updateLoop perm R (st, ab) (chunksList R l) = absorbAll perm R st l := by
  by_cases hl : l = []
  · subst hl
    rw [chunksList_nil, absorbAll_short _ _ _ _ (by simpa using Nat.pos_of_ne_zero hR)]
    simp [updateLoop, hab rfl]
  · rw [chunksList_cons R l hl hR]
    by_cases hlen : l.length < R
    · rw [List.take_of_length_le (Nat.le_of_lt hlen),
        List.drop_eq_nil_of_le (Nat.le_of_lt hlen), chunksList_nil,
        absorbAll_short _ _ _ _ hlen]
      simp [updateLoop, hlen]
    · have hle : R ≤ l.length := Nat.le_of_not_lt hlen
      have htake : (l.take R).length = R := by
        simp [List.length_take, Nat.min_eq_left hle]
      rw [absorbAll_long _ _ _ _ hle hR]
      simp only [updateLoop, htake]
      rw [if_neg (by omega)]
      exact updateLoop_eq_absorbAll perm R hR (l.drop R) _ [] (fun _ => rfl)
termination_by l.length
decreasing_by
  simp only [List.length_drop]
  have : l.length ≠ 0 := fun h0 => hl (List.eq_nil_of_length_eq_zero h0)
  omega

/-- `Poseidon::update` in closed form: run `absorbAll` on the concatenation
of the absorption buffer and the new elements. -/
theorem update_absorb {F : Type} [Add F] (perm : Spec → List F → List F)
    (R : Nat) (hR : R ≠ 0) (p : Poseidon F) (elements : List F) :
    p.update perm R elements
      = { state := (absorbAll (perm p.spec) R p.state (p.absorbing ++ elements)).1,
          spec := p.spec,
          absorbing := (absorbAll (perm p.spec) R p.state (p.absorbing ++ elements)).2 } := by
  unfold Poseidon.update
  dsimp only
  rw [updateLoop_eq_absorbAll (perm p.spec) R hR (p.absorbing ++ elements) p.state
    p.absorbing (fun h => (List.append_eq_nil.mp h).1)]

/-- Absorbing `a ++ b` is absorbing `a`, then absorbing the remainder of `a`
prepended to `b`. -/
theorem absorbAll_append {F : Type} [Add F] (perm : List F → List F) (R : Nat)
    (hR : R ≠ 0) (a b st : List F) :
    absorbAll perm R st (a ++ b)
      = absorbAll perm R (absorbAll perm R st a).1
          ((absorbAll perm R st a).2 ++ b) := by
  by_cases hlen : a.length < R
  · rw [absorbAll_short perm R st a hlen]
  · have hle : R ≤ a.length := Nat.le_of_not_lt hlen
    rw [absorbAll_long perm R st a hle hR,
      absorbAll_long perm R st (a ++ b) (by simp; omega) hR,
      List.take_append_of_le_length hle, List.drop_append_of_le_length hle]
    exact absorbAll_append perm R hR (a.drop R) b _
termination_by a.length
decreasing_by
  simp only [List.length_drop]
  omega

/-- Two consecutive `update` calls absorb the concatenation. -/
theorem update_update {F : Type} [Add F] (perm : Spec → List F → List F)
    (R : Nat) (hR : R ≠ 0) (p : Poseidon F) (a b : List F) :
    (p.update perm R a).update perm R b = p.update perm R (a ++ b) := by
  rw [update_absorb perm R hR p a, update_absorb perm R hR _ b,
    update_absorb perm R hR p (a ++ b)]
  simp only [← List.append_assoc]
  rw [absorbAll_append (perm p.spec) R hR (p.absorbing ++ a) b p.state]

/-- `update` with no elements is a no-op when the buffer respects the
invariant `len < RATE`. -/
theorem update_nil {F : Type} [Add F] (perm : Spec → List F → List F)
    (R : Nat) (p : Poseidon F) (habs : p.absorbing.length < R) :
    p.update perm R [] = p := by
  rw [update_absorb perm R (by omega) p []]
  rw [List.append_nil, absorbAll_short _ _ _ _ habs]

/-! ### Zero padding is invisible to the input-addition step -/

theorem zipAdd_replicate_zero {F : Type} [AddZeroClass F] :
    ∀ (k : Nat) (ys : List F), zipAdd (List.replicate k 0) ys = ys := by
  intro k
  induction k with
  | zero => intro ys; rfl
  | succ n ih =>
    intro ys
    cases ys with
    | nil => rfl
    | cons y ys => simp [List.replicate_succ, zipAdd, ih ys]

theorem zipAdd_append_replicate_zero {F : Type} [AddZeroClass F] :
    ∀ (xs ys : List F) (k : Nat),
      zipAdd (xs ++ List.replicate k 0) ys = zipAdd xs ys := by
  intro xs
  induction xs with
  | nil => intro ys k; simp [zipAdd, zipAdd_replicate_zero]
  | cons x xs ih =>
    intro ys k
    cases ys with
    | nil => rfl
    | cons y ys => simp [zipAdd, ih ys k]

theorem addAt1_append_replicate_zero {F : Type} [AddZeroClass F]
    (c st : List F) (k : Nat) :
    addAt1 (c ++ List.replicate k 0) st = addAt1 c st := by
  cases st with
  | nil => rfl
  | cons s0 rest => simp [addAt1, zipAdd_append_replicate_zero]

/-! ### The padded-chunks fold equals absorb-then-final-permute -/

/-- Folding the permute-after-add step over the `RATE`-chunks of
`l ++ [1] ++ zero padding` equals absorbing `l` and then performing the final
permutation on the remainder extended with the padding marker. -/
theorem foldl_chunks_pad {F : Type} [AddZeroClass F] [One F]
    (perm : List F → List F) (R : Nat) (hR : R ≠ 0) (l st : List F) :
    (chunksList R
        (l ++ (1 : F) :: List.replicate ((R - (l.length + 1) % R) % R) 0)).foldl
        (fun s c => perm (addAt1 c s)) st
      = perm (addAt1 ((absorbAll perm R st l).2 ++ [1])
          (absorbAll perm R st l).1) := by
  by_cases hlen : l.length < R
  · rw [absorbAll_short perm R st l hlen]
    have hz : l.length + 1 + (R - (l.length + 1) % R) % R = R := by
      rcases Nat.lt_or_ge (l.length + 1) R with h | h
      · have h1 : (l.length + 1) % R = l.length + 1 := Nat.mod_eq_of_lt h
        have h2 : (R - (l.length + 1)) % R = R - (l.length + 1) :=
          Nat.mod_eq_of_lt (by omega)
        rw [h1, h2]; omega
      · have h1 : l.length + 1 = R := by omega
        rw [h1, Nat.mod_self, Nat.sub_zero, Nat.mod_self]
        omega
    set z := (R - (l.length + 1) % R) % R with hzdef
    have hplen : (l ++ (1 : F) :: List.replicate z 0).length = R := by
      simp [List.length_append, List.length_replicate]; omega
    have hne : (l ++ (1 : F) :: List.replicate z 0) ≠ [] := by
      intro h; rw [h] at hplen; simp at hplen; omega
    rw [chunksList_cons R _ hne hR, List.take_of_length_le (by omega),
      List.drop_eq_nil_of_le (by omega), chunksList_nil]
    simp only [List.foldl_cons, List.foldl_nil]
    rw [List.append_cons, addAt1_append_replicate_zero]
  · have hle : R ≤ l.length := Nat.le_of_not_lt hlen
    have hmod : ((l.drop R).length + 1) % R = (l.length + 1) % R := by
      rw [List.length_drop]
      have : l.length + 1 = (l.length - R + 1) + R := by omega
      rw [this, Nat.add_mod_right]
    have hne : (l ++ (1 : F) ::
        List.replicate ((R - (l.length + 1) % R) % R) 0) ≠ [] := by
      simp
    rw [chunksList_cons R _ hne hR,
      List.take_append_of_le_length hle, List.drop_append_of_le_length hle,
      absorbAll_long perm R st l hle hR]
    simp only [List.foldl_cons]
    rw [← hmod]
    exact foldl_chunks_pad perm R hR (l.drop R) (perm (addAt1 (l.take R) st))
termination_by l.length
decreasing_by
  simp only [List.length_drop]
  omega

/-! ### Buffer invariant, call counting, frame and spec-preservation lemmas -/

theorem absorbAll_snd_lt {F : Type} [Add F] (perm : List F → List F) (R : Nat)
    (hR : R ≠ 0) (l st : List F) : (absorbAll perm R st l).2.length < R := by
  by_cases hlen : l.length < R
  · rw [absorbAll_short perm R st l hlen]; exact hlen
  · rw [absorbAll_long perm R st l (Nat.le_of_not_lt hlen) hR]
    exact absorbAll_snd_lt perm R hR (l.drop R) _
termination_by l.length
decreasing_by
  simp only [List.length_drop]
  omega

theorem update_absorbing_lt {F : Type} [Add F] (perm : Spec → List F → List F)
    (R : Nat) (hR : R ≠ 0) (p : Poseidon F) (elements : List F) :
    (p.update perm R elements).absorbing.length < R := by
  rw [update_absorb perm R hR p elements]
  exact absorbAll_snd_lt (perm p.spec) R hR _ _

theorem foldl_update_join {F : Type} [Add F] (perm : Spec → List F → List F)
    (R : Nat) (hR : R ≠ 0) :
    ∀ (parts : List (List F)) (p : Poseidon F), p.absorbing.length < R →
      parts.foldl (fun q l => q.update perm R l) p
        = p.update perm R parts.flatten := by
  intro parts
  induction parts with
  | nil =>
    intro p hab
    simp only [List.foldl_nil, List.flatten_nil]
    exact (update_nil perm R p hab).symm
  | cons l ls ih =>
    intro p hab
    simp only [List.foldl_cons, List.flatten_cons]
    rw [ih (p.update perm R l) (update_absorbing_lt perm R hR p l),
      update_update perm R hR p l ls.flatten]

/-- Chunking a list of length `R * k` yields exactly `k` full chunks, hence
`k` permutation invocations in the update loop. -/
theorem updateLoopCalls_chunksList {F : Type} (R : Nat) (hR : R ≠ 0) :
    ∀ (k : Nat) (l : List F), l.length = R * k →
      updateLoopCalls R (chunksList R l) = k := by
  intro k
  induction k with
  | zero =>
    intro l hl
    have : l = [] := List.eq_nil_of_length_eq_zero (by omega)
    rw [this, chunksList_nil]
    rfl
  | succ n ih =>
    intro l hl
    have hge : R ≤ l.length := by
      rw [hl]
      calc R = R * 1 := (Nat.mul_one R).symm
        _ ≤ R * (n + 1) := Nat.mul_le_mul_left R (by omega)
    have hne : l ≠ [] := by
      intro h
      rw [h] at hge
      simp at hge
      omega
    rw [chunksList_cons R l hne hR]
    have htake : (l.take R).length = R := by
      simp [List.length_take, Nat.min_eq_left hge]
    have hdrop : (l.drop R).length = R * n := by
      simp only [List.length_drop, hl]
      ring_nf
      omega
    simp only [updateLoopCalls, htake]
    rw [if_neg (by omega), ih (l.drop R) hdrop]
    omega

theorem addAt1_head {F : Type} [Add F] (chunk st : List F) :
    (addAt1 chunk st).head? = st.head? := by
  cases st <;> rfl

theorem updateLoop_fst_head {F : Type} [Add F] (perm : List F → List F)
    (R : Nat) (hperm : ∀ s, (perm s).head? = s.head?) :
    ∀ (cs : List (List F)) (acc : List F × List F),
      ((updateLoop perm R acc cs).1).head? = acc.1.head? := by
  intro cs
  induction cs with
  | nil => intro acc; rfl
  | cons c cs ih =>
    intro acc
    simp only [updateLoop]
    by_cases hc : c.length < R
    · rw [if_pos hc, ih (acc.1, c)]
    · rw [if_neg hc, ih (perm (addAt1 c acc.1), [])]
      rw [hperm (addAt1 c acc.1), addAt1_head]

theorem update_spec {F : Type} [Add F] (perm : Spec → List F → List F)
    (R : Nat) (p : Poseidon F) (elements : List F) :
    (p.update perm R elements).spec = p.spec := rfl

theorem runOp_spec {F : Type} [Add F] [Zero F] [One F]
    (perm : Spec → List F → List F) (T R : Nat) (p : Poseidon F) (op : Op F) :
    (p.runOp perm T R op).spec = p.spec := by
  cases op <;> rfl

theorem runOps_spec {F : Type} [Add F] [Zero F] [One F]
    (perm : Spec → List F → List F) (T R : Nat) :
    ∀ (ops : List (Op F)) (p : Poseidon F),
      (p.runOps perm T R ops).spec = p.spec := by
  intro ops
  induction ops with
  | nil => intro p; rfl
  | cons op ops ih =>
    intro p
    show ((p.runOp perm T R op).runOps perm T R ops).spec = p.spec
    rw [ih (p.runOp perm T R op), runOp_spec]

theorem runOp_absorbing_lt {F : Type} [Add F] [Zero F] [One F]
    (perm : Spec → List F → List F) (T R : Nat) (hR : R ≠ 0) (p : Poseidon F)
    (op : Op F) (hab : p.absorbing.length < R) :
    (p.runOp perm T R op).absorbing.length < R := by
  cases op with
  | upd es => exact update_absorbing_lt perm R hR p es
  | sq => simpa [Poseidon.runOp, Poseidon.squeeze] using Nat.pos_of_ne_zero hR
  | rst => simpa [Poseidon.runOp, Poseidon.reset] using Nat.pos_of_ne_zero hR
  | sqrst =>
    simpa [Poseidon.runOp, Poseidon.squeeze_and_reset, Poseidon.reset] using
      Nat.pos_of_ne_zero hR

theorem runOps_absorbing_lt {F : Type} [Add F] [Zero F] [One F]
    (perm : Spec → List F → List F) (T R : Nat) (hR : R ≠ 0) :
    ∀ (ops : List (Op F)) (p : Poseidon F), p.absorbing.length < R →
      (p.runOps perm T R ops).absorbing.length < R := by
  intro ops
  induction ops with
  | nil => intro p hab; exact hab
  | cons op ops ih =>
    intro p hab
    exact ih (p.runOp perm T R op) (runOp_absorbing_lt perm T R hR p op hab)

/-! ### Characterization of `zipAdd` by `zipWith` and `drop` -/

theorem zipAdd_eq_zipWith {F : Type} [Add F] :
    ∀ (xs ys : List F),
      zipAdd xs ys
        = List.zipWith (fun s c => s + c) ys xs ++ ys.drop xs.length := by
  intro xs
  induction xs with
  | nil => intro ys; simp [zipAdd]
  | cons x xs ih =>
    intro ys
    cases ys with
    | nil => rfl
    | cons y ys => simp [zipAdd, ih ys]

theorem zipAdd_length {F : Type} [Add F] (xs ys : List F) :
    (zipAdd xs ys).length = ys.length := by
  rw [zipAdd_eq_zipWith]
  simp only [List.length_append, List.length_zipWith, List.length_drop]
  omega

theorem addAt1_length {F : Type} [Add F] (chunk st : List F) :
    (addAt1 chunk st).length = st.length := by
  cases st with
  | nil => rfl
  | cons s0 rest => simp [addAt1, zipAdd_length]

theorem zipAdd_take {F : Type} [Add F] :
    ∀ (ys xs : List F), zipAdd (xs.take ys.length) ys = zipAdd xs ys := by
  intro ys
  induction ys with
  | nil =>
    intro xs
    cases xs <;> rfl
  | cons y ys ih =>
    intro xs
    cases xs with
    | nil => rfl
    | cons x xs => simp [zipAdd, ih xs]

theorem addAt1_take {F : Type} [Add F] (chunk st : List F) :
    addAt1 chunk st = addAt1 (chunk.take (st.length - 1)) st := by
  cases st with
  | nil => rfl
  | cons s0 rest =>
    simp only [addAt1, List.length_cons, Nat.add_sub_cancel]
    rw [zipAdd_take rest chunk]

/-! ### The claims -/

/-- C1: for every input sequence, `update` on the whole sequence followed by
`squeeze` returns the same element as the reference computation: append one
multiplicative-identity element, pad with zeros to the next multiple of
`RATE`, absorb the `RATE`-sized chunks into positions 1.. of a default state
permuting after each, and read the designated output slot — in particular an
aligned input still absorbs one full extra padding chunk. -/
theorem claim_C1_padding_refinement {F : Type} [AddZeroClass F] [One F]
    (perm : Spec → List F → List F) (T R r_f r_p : Nat) (input : List F)
    (hR : 1 ≤ R) :
    (((Poseidon.new F T r_f r_p).update perm R input).squeeze perm).1
      = referenceHash perm ⟨r_f, r_p⟩ T R input := by
  have hR' : R ≠ 0 := by omega
  rw [update_absorb perm R hR' (Poseidon.new F T r_f r_p) input]
  dsimp only [Poseidon.squeeze, Poseidon.new, referenceHash]
  rw [List.nil_append,
    foldl_chunks_pad (perm ⟨r_f, r_p⟩) R hR' input (State.default F T)]

/-- C1 witness: the refinement evaluated at a concrete engine and input. -/
theorem claim_C1_padding_refinement_witness :
    (1 : Nat) ≤ 2
    ∧ (((Poseidon.new Int 3 8 57).update intPerm 2 [5, 6, 7]).squeeze
          intPerm).1
        = referenceHash intPerm ⟨8, 57⟩ 3 2 [5, 6, 7] :=
  ⟨by decide,
    claim_C1_padding_refinement intPerm 3 2 8 57 [5, 6, 7] (by decide)⟩

/-- C2: for every partition of the input into consecutive sub-sequences,
calling `update` once per sub-sequence and then `squeeze` yields the same
field element and the same final engine state as one `update` on the whole
sequence followed by `squeeze`. -/
theorem claim_C2_chunked_update_equivalence {F : Type} [Add F] [Zero F]
    [One F] (perm : Spec → List F → List F) (R : Nat) (p : Poseidon F)
    (parts : List (List F)) (hab : p.absorbing.length < R) :
    (parts.foldl (fun q l => q.update perm R l) p).squeeze perm
      = (p.update perm R parts.flatten).squeeze perm := by
  have hR : R ≠ 0 := by omega
  rw [foldl_update_join perm R hR parts p hab]

/-- C2 witness: a concrete partition, including empty and singleton parts. -/
theorem claim_C2_chunked_update_equivalence_witness :
    (Poseidon.new Int 3 8 57).absorbing.length < 2
    ∧ (([[1], [], [2, 3, 4]] : List (List Int)).foldl
          (fun q l => q.update intPerm 2 l) (Poseidon.new Int 3 8 57)).squeeze
          intPerm
        = ((Poseidon.new Int 3 8 57).update intPerm 2
            ([[1], [], [2, 3, 4]] : List (List Int)).flatten).squeeze intPerm :=
  ⟨by decide,
    claim_C2_chunked_update_equivalence intPerm 2 (Poseidon.new Int 3 8 57)
      [[1], [], [2, 3, 4]] (by decide)⟩

/-- C3: starting from a freshly constructed engine, after every sequence of
public operations the absorbing buffer has length strictly less than `RATE`:
it never persists at length `≥ RATE`. -/
theorem claim_C3_buffer_invariant {F : Type} [Add F] [Zero F] [One F]
    (perm : Spec → List F → List F) (T R r_f r_p : Nat) (ops : List (Op F))
    (hR : 1 ≤ R) :
    ((Poseidon.new F T r_f r_p).runOps perm T R ops).absorbing.length < R :=
  runOps_absorbing_lt perm T R (by omega) ops (Poseidon.new F T r_f r_p)
    (by simpa [Poseidon.new] using hR)

/-- C3 witness: the invariant evaluated on a concrete operation sequence. -/
theorem claim_C3_buffer_invariant_witness :
    (1 : Nat) ≤ 2
    ∧ ((Poseidon.new Int 3 8 57).runOps intPerm 3 2
        [Op.upd [1, 2, 3], Op.sq, Op.upd [4], Op.sqrst,
          Op.rst]).absorbing.length < 2 :=
  ⟨by decide,
    claim_C3_buffer_invariant intPerm 3 2 8 57
      [Op.upd [1, 2, 3], Op.sq, Op.upd [4], Op.sqrst, Op.rst] (by decide)⟩

/-- C4: absorbing exactly `RATE * k` elements from a fresh engine and then
squeezing invokes the permutation exactly `k + 1` times: `k` during
absorption and one during squeeze. -/
theorem claim_C4_permutation_count {F : Type} [Zero F]
    (T R r_f r_p k : Nat) (elements : List F) (hR : 1 ≤ R)
    (hlen : elements.length = R * k) :
    (Poseidon.new F T r_f r_p).updateCalls R elements + squeezeCalls
      = k + 1 := by
  unfold Poseidon.updateCalls squeezeCalls
  simp only [Poseidon.new, List.nil_append]
  rw [updateLoopCalls_chunksList R (by omega) k elements hlen]

/-- C4 witness: `2 * 2` elements, `2 + 1` permutation invocations. -/
theorem claim_C4_permutation_count_witness :
    (1 : Nat) ≤ 2 ∧ ([5, 6, 7, 8] : List Int).length = 2 * 2
    ∧ (Poseidon.new Int 3 8 57).updateCalls 2 [5, 6, 7, 8] + squeezeCalls
        = 2 + 1 :=
  ⟨by decide, by decide,
    claim_C4_permutation_count 3 2 8 57 2 [5, 6, 7, 8] (by decide) (by decide)⟩

/-- C5: the input-addition steps of `update` and `squeeze` never modify state
position 0: the addition step preserves the head of the state, and for any
permutation that fixes position 0 the whole of `update` and `squeeze` fix
position 0, so only the permutation itself can change it. -/
theorem claim_C5_capacity_slot_untouched {F : Type} [Add F] [Zero F] [One F]
    (perm : Spec → List F → List F) (R : Nat) (p : Poseidon F)
    (elements chunk st : List F)
    (hperm : ∀ sp s, (perm sp s).head? = s.head?) :
    (addAt1 chunk st).head? = st.head?
    ∧ ((p.update perm R elements).state).head? = p.state.head?
    ∧ (((p.squeeze perm).2).state).head? = p.state.head? := by
  refine ⟨addAt1_head chunk st, ?_, ?_⟩
  · dsimp only [Poseidon.update]
    exact updateLoop_fst_head (perm p.spec) R (hperm p.spec) _ _
  · dsimp only [Poseidon.squeeze]
    rw [hperm p.spec, addAt1_head]

/-- C5 witness: evaluated with the identity permutation, which fixes
position 0. -/
theorem claim_C5_capacity_slot_untouched_witness :
    (∀ sp s, ((fun (_ : Spec) (l : List Int) => l) sp s).head? = s.head?)
    ∧ ((addAt1 [1, 2] [0, 0, 0] : List Int).head?
          = ([0, 0, 0] : List Int).head?
        ∧ (((Poseidon.new Int 3 8 57).update (fun _ l => l) 2
              [1, 2, 3]).state).head?
            = (Poseidon.new Int 3 8 57).state.head?
        ∧ ((((Poseidon.new Int 3 8 57).squeeze (fun _ l => l)).2).state).head?
            = (Poseidon.new Int 3 8 57).state.head?) :=
  ⟨fun _ _ => rfl,
    claim_C5_capacity_slot_untouched (fun _ l => l) 2
      (Poseidon.new Int 3 8 57) [1, 2, 3] [1, 2] [0, 0, 0] (fun _ _ => rfl)⟩

/-- C6: `squeeze_and_reset` returns exactly the value `squeeze` would return
and leaves the engine in the state `squeeze` followed by `reset` leaves it
in, namely the fresh default state with an empty buffer. -/
theorem claim_C6_squeeze_and_reset_composition {F : Type} [Add F] [Zero F]
    [One F] (perm : Spec → List F → List F) (T : Nat) (p : Poseidon F) :
    (p.squeeze_and_reset perm T).1 = (p.squeeze perm).1
    ∧ (p.squeeze_and_reset perm T).2 = ((p.squeeze perm).2).reset T
    ∧ (p.squeeze_and_reset perm T).2
        = { state := State.default F T, spec := p.spec, absorbing := [] } :=
  ⟨rfl, rfl, rfl⟩

/-- C7: `reset` after any sequence of operations restores an engine equal to
a freshly constructed one with the same round counts, and every subsequent
operation sequence (and squeeze output) coincides on the two engines. -/
theorem claim_C7_reset_restores_fresh {F : Type} [Add F] [Zero F] [One F]
    (perm : Spec → List F → List F) (T R r_f r_p : Nat)
    (ops more : List (Op F)) :
    ((Poseidon.new F T r_f r_p).runOps perm T R ops).reset T
      = Poseidon.new F T r_f r_p
    ∧ (((Poseidon.new F T r_f r_p).runOps perm T R ops).reset T).runOps
        perm T R more
      = (Poseidon.new F T r_f r_p).runOps perm T R more
    ∧ ((((Poseidon.new F T r_f r_p).runOps perm T R ops).reset T).squeeze
        perm).1
      = ((Poseidon.new F T r_f r_p).squeeze perm).1 := by
  have h1 : ((Poseidon.new F T r_f r_p).runOps perm T R ops).reset T
      = Poseidon.new F T r_f r_p := by
    have hs := runOps_spec perm T R ops (Poseidon.new F T r_f r_p)
    dsimp only [Poseidon.reset, Poseidon.new]
    dsimp only [Poseidon.new] at hs
    rw [hs]
  exact ⟨h1, by rw [h1], by rw [h1]⟩

/-- C8: the byte-adapter finalize computes `squeeze_and_reset`, serializes
the result with the canonical representation, reverses the byte order, and
the declared output size is 32 bytes. -/
theorem claim_C8_finalize_into {F : Type} [Add F] [Zero F] [One F]
    (perm : Spec → List F → List F) (T : Nat) (toRepr : F → List Nat)
    (p : Poseidon F) :
    p.finalize_into perm T toRepr
        = (toRepr (p.squeeze_and_reset perm T).1).reverse
    ∧ p.finalize_into perm T toRepr = (toRepr (p.squeeze perm).1).reverse
    ∧ outputSize = 32 :=
  ⟨rfl, rfl, rfl⟩

/-- C9: the parameterless default construction fixes exactly 8 full rounds
and 57 partial rounds, with the default zero state vector and an empty
absorbing buffer. -/
theorem claim_C9_default_construction (F : Type) [Zero F] (T : Nat) :
    (Poseidon.default F T).spec.r_f = 8
    ∧ (Poseidon.default F T).spec.r_p = 57
    ∧ (Poseidon.default F T).state = List.replicate T (0 : F)
    ∧ (Poseidon.default F T).absorbing = [] :=
  ⟨rfl, rfl, rfl, rfl⟩

/-- C10: the input-addition step is total and in-bounds for any `T` and
`RATE` — it preserves the state length, pairs chunk elements with state
cells by zip semantics (every chunk element is used exactly while state
cells remain, surplus state cells are kept unchanged), and chunk elements
beyond the available `T - 1` cells are silently dropped. -/
theorem claim_C10_zip_bounds (F : Type) [Add F] (chunk st ss : List F) :
    (addAt1 chunk st).length = st.length
    ∧ zipAdd chunk ss
        = List.zipWith (fun s c => s + c) ss chunk ++ ss.drop chunk.length
    ∧ addAt1 chunk st = addAt1 (chunk.take (st.length - 1)) st :=
  ⟨addAt1_length chunk st, zipAdd_eq_zipWith chunk ss, addAt1_take chunk st⟩

end PsePoseidon
